import Mathlib

/-!
Verification of the shortcut specification / parsing / registration subsystem
of the t_app repository (src-tauri/src/commands/shortcuts.rs and
src-tauri/src/types.rs), as a shallow embedding in Lean.

Rust strings are modelled as `List Char`; the ASCII case conversions of
`str::to_lowercase` / `char::to_uppercase` are modelled on the ASCII range
(identity elsewhere), and `str::trim` strips the ASCII whitespace characters
space, tab, carriage return and newline from both ends.
-/

/-- ASCII whitespace test, modelling the characters `str::trim` removes that
occur in shortcut text. -/
def isWS (c : Char) : Bool :=
  c == ' ' || c == '\t' || c == '\n' || c == '\r'

/-- ASCII lower-casing of one character, modelling `char::to_lowercase` on the
ASCII range (identity on every other character).  Rust case conversion is
full-Unicode and one-to-many; only its ASCII fragment is carried here. -/
def lowerChar (c : Char) : Char :=
  if 65 ≤ c.toNat ∧ c.toNat ≤ 90 then Char.ofNat (c.toNat + 32) else c

/-- ASCII upper-casing of one character, modelling `char::to_uppercase` on the
ASCII range (identity on every other character).  Rust case conversion is
full-Unicode and one-to-many (for example ß uppercases to the two-character
string SS); only its ASCII fragment is carried here. -/
def upperChar (c : Char) : Char :=
  if 97 ≤ c.toNat ∧ c.toNat ≤ 122 then Char.ofNat (c.toNat - 32) else c

theorem char_toNat_inj {c d : Char} (h : c.toNat = d.toNat) : c = d := by
  rw [← Char.ofNat_toNat c, ← Char.ofNat_toNat d, h]

theorem char_toNat_ofNat {n : Nat} (h : n < 55296) : (Char.ofNat n).toNat = n := by
  have hv : n.isValidChar := Or.inl h
  simp [Char.ofNat, hv]
  rfl

theorem lowerChar_upperChar (c : Char) : lowerChar (upperChar c) = lowerChar c := by
  unfold upperChar
  by_cases h : 97 ≤ c.toNat ∧ c.toNat ≤ 122
  · rw [if_pos h]
    have h1 : (Char.ofNat (c.toNat - 32)).toNat = c.toNat - 32 :=
      char_toNat_ofNat (by omega)
    unfold lowerChar
    rw [h1]
    rw [if_pos (show 65 ≤ c.toNat - 32 ∧ c.toNat - 32 ≤ 90 by omega),
      if_neg (show ¬(65 ≤ c.toNat ∧ c.toNat ≤ 90) by omega)]
    have h4 : c.toNat - 32 + 32 = c.toNat := by omega
    rw [h4, Char.ofNat_toNat]
  · rw [if_neg h]

theorem upperChar_upperChar (c : Char) : upperChar (upperChar c) = upperChar c := by
  by_cases h : 97 ≤ c.toNat ∧ c.toNat ≤ 122
  · have h0 : upperChar c = Char.ofNat (c.toNat - 32) := by
      unfold upperChar
      rw [if_pos h]
    have h1 : (Char.ofNat (c.toNat - 32)).toNat = c.toNat - 32 :=
      char_toNat_ofNat (by omega)
    rw [h0]
    unfold upperChar
    rw [h1, if_neg (show ¬(97 ≤ c.toNat - 32 ∧ c.toNat - 32 ≤ 122) by omega)]
  · have h0 : upperChar c = c := by
      unfold upperChar
      rw [if_neg h]
    rw [h0, h0]

theorem upperChar_eq_plus {c : Char} (h : upperChar c = '+') : c = '+' := by
  unfold upperChar at h
  by_cases hc : 97 ≤ c.toNat ∧ c.toNat ≤ 122
  · rw [if_pos hc] at h
    have h1 : (Char.ofNat (c.toNat - 32)).toNat = c.toNat - 32 :=
      char_toNat_ofNat (by omega)
    have h2 : (Char.ofNat (c.toNat - 32)).toNat = ('+' : Char).toNat := by rw [h]
    rw [h1] at h2
    have : ('+' : Char).toNat = 43 := by decide
    omega
  · rwa [if_neg hc] at h

theorem isWS_true_iff {c : Char} :
    isWS c = true ↔ (c.toNat = 32 ∨ c.toNat = 9 ∨ c.toNat = 10 ∨ c.toNat = 13) := by
  unfold isWS
  simp only [Bool.or_eq_true, beq_iff_eq]
  constructor
  · rintro (((h | h) | h) | h) <;> subst h <;> decide
  · rintro (h | h | h | h)
    · exact Or.inl (Or.inl (Or.inl (char_toNat_inj (by rw [h]; decide))))
    · exact Or.inl (Or.inl (Or.inr (char_toNat_inj (by rw [h]; decide))))
    · exact Or.inl (Or.inr (char_toNat_inj (by rw [h]; decide)))
    · exact Or.inr (char_toNat_inj (by rw [h]; decide))

theorem isWS_upperChar (c : Char) : isWS (upperChar c) = isWS c := by
  unfold upperChar
  by_cases h : 97 ≤ c.toNat ∧ c.toNat ≤ 122
  · rw [if_pos h]
    have h1 : (Char.ofNat (c.toNat - 32)).toNat = c.toNat - 32 :=
      char_toNat_ofNat (by omega)
    have ha : isWS (Char.ofNat (c.toNat - 32)) = false := by
      cases hw : isWS (Char.ofNat (c.toNat - 32))
      · rfl
      · have := isWS_true_iff.mp hw
        rw [h1] at this
        omega
    have hb : isWS c = false := by
      cases hw : isWS c
      · rfl
      · have := isWS_true_iff.mp hw
        omega
    rw [ha, hb]
  · rw [if_neg h]

/-- Splitting a character list at every occurrence of the separator `'+'`,
modelling Rust `str::split('+')` (which yields one empty piece for the empty
string, and empty pieces around adjacent separators). -/
def splitPlus : List Char → List (List Char)
  | [] => [[]]
  | c :: cs =>
    if c = '+' then [] :: splitPlus cs
    else
      match splitPlus cs with
      | [] => [[c]]
      | s :: ss => (c :: s) :: ss

/-- Joining token lists with the separator `'+'`, modelling
`Vec::join("+")`. -/
def joinPlus : List (List Char) → List Char
  | [] => []
  | [t] => t
  | t :: t' :: ts => t ++ '+' :: joinPlus (t' :: ts)

/-- Dropping the leading whitespace run, modelling the left half of
`str::trim`. -/
def dropWS : List Char → List Char
  | [] => []
  | c :: cs => if isWS c then dropWS cs else c :: cs

/-- Dropping the trailing whitespace run, modelling the right half of
`str::trim`. -/
def rdropWS : List Char → List Char
  | [] => []
  | c :: cs =>
    let r := rdropWS cs
    if r = [] then (if isWS c then [] else [c]) else c :: r

/-- `str::trim`: strip whitespace from both ends. -/
def trimChars (l : List Char) : List Char := rdropWS (dropWS l)

/-- The case-insensitive synonym table of `parse_shortcut`
(shortcuts.rs lines 19-37), applied to the lower-cased segment; `none` means
the segment falls through to the literal-key branch. -/
def synonymTok (low : List Char) (isMac : Bool) : Option (List Char) :=
  if low = "⌘".data ∨ low = "cmd".data ∨ low = "command".data then
    some (if isMac then "Cmd".data else "Ctrl".data)
  else if low = "ctrl".data ∨ low = "control".data then some "Ctrl".data
  else if low = "shift".data then some "Shift".data
  else if low = "alt".data ∨ low = "⌥".data ∨ low = "option".data then some "Alt".data
  else if low = "↑".data ∨ low = "up".data then some "Up".data
  else if low = "↓".data ∨ low = "down".data then some "Down".data
  else if low = "←".data ∨ low = "left".data then some "Left".data
  else if low = "→".data ∨ low = "right".data then some "Right".data
  else if low = "↵".data ∨ low = "enter".data ∨ low = "return".data then some "Enter".data
  else if low = "esc".data ∨ low = "escape".data then some "Escape".data
  else if low = "space".data then some "Space".data
  else if low = "tab".data then some "Tab".data
  else none

/-- The literal-key fallback of `parse_shortcut` (shortcuts.rs lines 38-48):
upper-case the first character, keep the rest of the segment in its original
case.  For a one-character segment this coincides with
`part.to_uppercase()`; for a longer segment it is
`first.to_uppercase() + rest`, with `first.to_uppercase()` modelled by the
single-character ASCII map `upperChar` — the one-to-many Unicode expansions
of `char::to_uppercase` (ß → SS and the like) are outside this model. -/
def titleCase : List Char → List Char
  | [] => []
  | c :: rest => upperChar c :: rest

/-- One segment of `parse_shortcut`'s iterator map (shortcuts.rs lines
19-49): look the lower-cased segment up in the synonym table, else produce a
literal key. -/
def mapToken (part : List Char) (isMac : Bool) : List Char :=
  match synonymTok (part.map lowerChar) isMac with
  | some tok => tok
  | none => titleCase part

/-- The non-empty trimmed segments of the input: `verbose.split('+')
.map(trim).filter(non-empty)` (shortcuts.rs lines 15-18). -/
def parseSegments (verbose : List Char) : List (List Char) :=
  ((splitPlus verbose).map trimChars).filter (fun s => !s.isEmpty)

/-- The canonical token sequence produced for an input: one token per
non-empty segment (shortcuts.rs lines 15-50). -/
def parseTokens (verbose : List Char) (isMac : Bool) : List (List Char) :=
  (parseSegments verbose).map (fun p => mapToken p isMac)

/-- `parse_shortcut` (shortcuts.rs lines 10-57): `None` on the empty input,
otherwise the canonical tokens joined with `'+'`, or `None` when no token
survives. -/
def parse_shortcut (verbose : List Char) (isMac : Bool) : Option (List Char) :=
  if verbose = [] then none
  else
    let parts := parseTokens verbose isMac
    if parts = [] then none else some (joinPlus parts)

example : parse_shortcut "Cmd+S".data true = some "Cmd+S".data := by decide
example : parse_shortcut "Cmd+S".data false = some "Ctrl+S".data := by decide
example : parse_shortcut "g".data false = some "G".data := by decide
example : parse_shortcut "".data false = none := by decide
example : parse_shortcut "  +  ".data false = none := by decide
example : parse_shortcut "⌘ + S".data true = some "Cmd+S".data := by decide
example : parse_shortcut "ctrl + shift + hello".data false = some "Ctrl+Shift+Hello".data := by decide

theorem splitPlus_ne_nil (l : List Char) : splitPlus l ≠ [] := by
  induction l with
  | nil => simp [splitPlus]
  | cons c cs ih =>
    unfold splitPlus
    by_cases hc : c = '+'
    · simp [hc]
    · rw [if_neg hc]
      cases hs : splitPlus cs with
      | nil => simp
      | cons s ss => simp

theorem splitPlus_no_plus {l : List Char} {t : List Char}
    (ht : t ∈ splitPlus l) : '+' ∉ t := by
  induction l generalizing t with
  | nil =>
    simp [splitPlus] at ht
    subst ht
    simp
  | cons c cs ih =>
    unfold splitPlus at ht
    by_cases hc : c = '+'
    · rw [if_pos hc] at ht
      rcases List.mem_cons.mp ht with h | h
      · subst h; simp
      · exact ih h
    · rw [if_neg hc] at ht
      cases hs : splitPlus cs with
      | nil => exact absurd hs (splitPlus_ne_nil cs)
      | cons s ss =>
        rw [hs] at ht
        rcases List.mem_cons.mp ht with h | h
        · subst h
          intro hm
          rcases List.mem_cons.mp hm with h' | h'
          · exact hc h'.symm
          · exact ih (hs ▸ List.mem_cons_self s ss) h'
        · exact ih (hs ▸ List.mem_cons_of_mem s h)

theorem splitPlus_mem_subset {l t : List Char} {c : Char}
    (ht : t ∈ splitPlus l) (hc : c ∈ t) : c ∈ l := by
  induction l generalizing t with
  | nil =>
    simp [splitPlus] at ht
    subst ht
    simp at hc
  | cons a as ih =>
    unfold splitPlus at ht
    by_cases ha : a = '+'
    · rw [if_pos ha] at ht
      rcases List.mem_cons.mp ht with h | h
      · subst h; simp at hc
      · exact List.mem_cons_of_mem a (ih h hc)
    · rw [if_neg ha] at ht
      cases hs : splitPlus as with
      | nil => exact absurd hs (splitPlus_ne_nil as)
      | cons s ss =>
        rw [hs] at ht
        rcases List.mem_cons.mp ht with h | h
        · subst h
          rcases List.mem_cons.mp hc with h' | h'
          · exact h' ▸ List.mem_cons_self a as
          · exact List.mem_cons_of_mem a (ih (hs ▸ List.mem_cons_self s ss) h')
        · exact List.mem_cons_of_mem a (ih (hs ▸ List.mem_cons_of_mem s h) hc)

theorem splitPlus_nosplit {t : List Char} (h : '+' ∉ t) : splitPlus t = [t] := by
  induction t with
  | nil => rfl
  | cons c cs ih =>
    have hc : c ≠ '+' := fun he => h (he ▸ List.mem_cons_self c cs)
    have hcs : '+' ∉ cs := fun hm => h (List.mem_cons_of_mem c hm)
    unfold splitPlus
    rw [if_neg hc, ih hcs]

theorem splitPlus_append {t r : List Char} (h : '+' ∉ t) :
    splitPlus (t ++ '+' :: r) = t :: splitPlus r := by
  induction t with
  | nil => simp [splitPlus]
  | cons c cs ih =>
    have hc : c ≠ '+' := fun he => h (he ▸ List.mem_cons_self c cs)
    have hcs : '+' ∉ cs := fun hm => h (List.mem_cons_of_mem c hm)
    simp only [List.cons_append]
    cases hs : splitPlus (cs ++ '+' :: r) with
    | nil => exact absurd hs (splitPlus_ne_nil _)
    | cons s ss =>
      have h2 : s :: ss = cs :: splitPlus r := by rw [← hs, ih hcs]
      injection h2 with h3 h4
      subst h3
      subst h4
      conv_lhs => rw [splitPlus]
      rw [if_neg hc, hs]

theorem splitPlus_joinPlus {ts : List (List Char)} (hne : ts ≠ [])
    (hp : ∀ t ∈ ts, '+' ∉ t) : splitPlus (joinPlus ts) = ts := by
  induction ts with
  | nil => exact absurd rfl hne
  | cons t ts ih =>
    cases ts with
    | nil =>
      unfold joinPlus
      exact splitPlus_nosplit (hp t (List.mem_cons_self t []))
    | cons t' ts' =>
      unfold joinPlus
      rw [splitPlus_append (hp t (List.mem_cons_self t (t' :: ts')))]
      rw [ih (by simp) (fun u hu => hp u (List.mem_cons_of_mem t hu))]

/-- The first character, if any, is not whitespace. -/
def headNotWS (t : List Char) : Bool :=
  match t with
  | [] => true
  | c :: _ => !isWS c

/-- The final character, if any, is not whitespace. -/
def lastNotWS (t : List Char) : Bool :=
  match t.getLast? with
  | none => true
  | some c => !isWS c

theorem dropWS_subset {l : List Char} {x : Char} (h : x ∈ dropWS l) : x ∈ l := by
  induction l with
  | nil => simp [dropWS] at h
  | cons c cs ih =>
    unfold dropWS at h
    by_cases hc : isWS c
    · rw [if_pos hc] at h
      exact List.mem_cons_of_mem c (ih h)
    · rwa [if_neg hc] at h

theorem rdropWS_subset {l : List Char} {x : Char} (h : x ∈ rdropWS l) : x ∈ l := by
  induction l with
  | nil => simp [rdropWS] at h
  | cons c cs ih =>
    unfold rdropWS at h
    simp only at h
    by_cases hr : rdropWS cs = []
    · rw [if_pos hr] at h
      by_cases hc : isWS c
      · rw [if_pos hc] at h
        simp at h
      · rw [if_neg hc] at h
        simp at h
        exact h ▸ List.mem_cons_self c cs
    · rw [if_neg hr] at h
      rcases List.mem_cons.mp h with h' | h'
      · exact h' ▸ List.mem_cons_self c cs
      · exact List.mem_cons_of_mem c (ih h')

theorem trim_subset {l : List Char} {x : Char} (h : x ∈ trimChars l) : x ∈ l :=
  dropWS_subset (rdropWS_subset h)

theorem dropWS_nil_of_allWS {l : List Char} (h : ∀ c ∈ l, isWS c = true) :
    dropWS l = [] := by
  induction l with
  | nil => rfl
  | cons c cs ih =>
    unfold dropWS
    rw [if_pos (h c (List.mem_cons_self c cs))]
    exact ih (fun a ha => h a (List.mem_cons_of_mem c ha))

theorem trim_nil_of_allWS {l : List Char} (h : ∀ c ∈ l, isWS c = true) :
    trimChars l = [] := by
  unfold trimChars
  rw [dropWS_nil_of_allWS h]
  rfl

theorem dropWS_headNotWS (l : List Char) : headNotWS (dropWS l) = true := by
  induction l with
  | nil => rfl
  | cons c cs ih =>
    unfold dropWS
    by_cases hc : isWS c
    · rwa [if_pos hc]
    · rw [if_neg hc]
      unfold headNotWS
      simp [hc]

theorem rdropWS_keeps_head (c : Char) (cs : List Char) :
    rdropWS (c :: cs) = [] ∨ ∃ t, rdropWS (c :: cs) = c :: t := by
  unfold rdropWS
  simp only
  by_cases hr : rdropWS cs = []
  · rw [if_pos hr]
    by_cases hc : isWS c
    · rw [if_pos hc]
      exact Or.inl rfl
    · rw [if_neg hc]
      exact Or.inr ⟨[], rfl⟩
  · rw [if_neg hr]
    exact Or.inr ⟨rdropWS cs, rfl⟩

theorem rdropWS_lastNotWS (l : List Char) : lastNotWS (rdropWS l) = true := by
  induction l with
  | nil => rfl
  | cons c cs ih =>
    unfold rdropWS
    simp only
    by_cases hr : rdropWS cs = []
    · rw [if_pos hr]
      by_cases hc : isWS c
      · rw [if_pos hc]
        rfl
      · rw [if_neg hc]
        unfold lastNotWS
        simp [List.getLast?, hc]
    · rw [if_neg hr]
      unfold lastNotWS
      cases hr2 : rdropWS cs with
      | nil => exact absurd hr2 hr
      | cons d ds =>
        rw [hr2] at ih
        unfold lastNotWS at ih
        rw [List.getLast?_cons_cons]
        exact ih

theorem trim_headNotWS (l : List Char) : headNotWS (trimChars l) = true := by
  unfold trimChars
  cases hd : dropWS l with
  | nil => rfl
  | cons c cs =>
    have hh : headNotWS (c :: cs) = true := hd ▸ dropWS_headNotWS l
    rcases rdropWS_keeps_head c cs with h | ⟨t, h⟩
    · rw [h]
      rfl
    · rw [h]
      unfold headNotWS at hh ⊢
      exact hh

theorem trim_lastNotWS (l : List Char) : lastNotWS (trimChars l) = true :=
  rdropWS_lastNotWS (dropWS l)

theorem dropWS_eq_self {l : List Char} (h : headNotWS l = true) : dropWS l = l := by
  cases l with
  | nil => rfl
  | cons c cs =>
    unfold headNotWS at h
    simp only [Bool.not_eq_true'] at h
    unfold dropWS
    rw [if_neg (by rw [h]; exact Bool.false_ne_true)]

theorem rdropWS_eq_self {l : List Char} (h : lastNotWS l = true) : rdropWS l = l := by
  induction l with
  | nil => rfl
  | cons c cs ih =>
    unfold rdropWS
    simp only
    cases hcs : cs with
    | nil =>
      unfold lastNotWS at h
      rw [hcs] at h
      simp [List.getLast?] at h
      simp [rdropWS, h]
    | cons d ds =>
      have hlast : lastNotWS cs = true := by
        unfold lastNotWS at h ⊢
        rw [hcs] at h ⊢
        rwa [List.getLast?_cons_cons] at h
      rw [← hcs, ih hlast]
      rw [if_neg (by rw [hcs]; exact List.cons_ne_nil d ds)]

theorem trim_eq_self {l : List Char} (h1 : headNotWS l = true)
    (h2 : lastNotWS l = true) : trimChars l = l := by
  unfold trimChars
  rw [dropWS_eq_self h1, rdropWS_eq_self h2]

/-- The well-formedness a canonical token enjoys: non-empty, free of the
separator, free of edge whitespace, and a fixed point of `mapToken`. -/
def goodTok (m : Bool) (t : List Char) : Prop :=
  t ≠ [] ∧ '+' ∉ t ∧ headNotWS t = true ∧ lastNotWS t = true ∧ mapToken t m = t

instance (m : Bool) (t : List Char) : Decidable (goodTok m t) := by
  unfold goodTok
  infer_instance

set_option maxHeartbeats 1600000 in
theorem synonymTok_good {low : List Char} {m : Bool} {tok : List Char}
    (h : synonymTok low m = some tok) : goodTok m tok := by
  unfold synonymTok at h
  by_cases h1 : low = "⌘".data ∨ low = "cmd".data ∨ low = "command".data
  · rw [if_pos h1] at h
    injection h with h
    subst h
    cases m <;> decide
  rw [if_neg h1] at h
  by_cases h2 : low = "ctrl".data ∨ low = "control".data
  · rw [if_pos h2] at h
    injection h with h
    subst h
    cases m <;> decide
  rw [if_neg h2] at h
  by_cases h3 : low = "shift".data
  · rw [if_pos h3] at h
    injection h with h
    subst h
    cases m <;> decide
  rw [if_neg h3] at h
  by_cases h4 : low = "alt".data ∨ low = "⌥".data ∨ low = "option".data
  · rw [if_pos h4] at h
    injection h with h
    subst h
    cases m <;> decide
  rw [if_neg h4] at h
  by_cases h5 : low = "↑".data ∨ low = "up".data
  · rw [if_pos h5] at h
    injection h with h
    subst h
    cases m <;> decide
  rw [if_neg h5] at h
  by_cases h6 : low = "↓".data ∨ low = "down".data
  · rw [if_pos h6] at h
    injection h with h
    subst h
    cases m <;> decide
  rw [if_neg h6] at h
  by_cases h7 : low = "←".data ∨ low = "left".data
  · rw [if_pos h7] at h
    injection h with h
    subst h
    cases m <;> decide
  rw [if_neg h7] at h
  by_cases h8 : low = "→".data ∨ low = "right".data
  · rw [if_pos h8] at h
    injection h with h
    subst h
    cases m <;> decide
  rw [if_neg h8] at h
  by_cases h9 : low = "↵".data ∨ low = "enter".data ∨ low = "return".data
  · rw [if_pos h9] at h
    injection h with h
    subst h
    cases m <;> decide
  rw [if_neg h9] at h
  by_cases h10 : low = "esc".data ∨ low = "escape".data
  · rw [if_pos h10] at h
    injection h with h
    subst h
    cases m <;> decide
  rw [if_neg h10] at h
  by_cases h11 : low = "space".data
  · rw [if_pos h11] at h
    injection h with h
    subst h
    cases m <;> decide
  rw [if_neg h11] at h
  by_cases h12 : low = "tab".data
  · rw [if_pos h12] at h
    injection h with h
    subst h
    cases m <;> decide
  rw [if_neg h12] at h
  exact Option.noConfusion h

theorem map_lowerChar_titleCase (part : List Char) :
    (titleCase part).map lowerChar = part.map lowerChar := by
  cases part with
  | nil => rfl
  | cons c rest =>
    unfold titleCase
    simp only [List.map_cons, lowerChar_upperChar]

theorem litTok_good {part : List Char} {m : Bool}
    (hne : part ≠ []) (hp : '+' ∉ part)
    (hh : headNotWS part = true) (hl : lastNotWS part = true)
    (hsyn : synonymTok (part.map lowerChar) m = none) :
    goodTok m (titleCase part) := by
  cases part with
  | nil => exact absurd rfl hne
  | cons c rest =>
    have htc : titleCase (c :: rest) = upperChar c :: rest := rfl
    rw [htc]
    refine ⟨List.cons_ne_nil _ _, ?_, ?_, ?_, ?_⟩
    · intro hm
      rcases List.mem_cons.mp hm with h' | h'
      · exact hp ((upperChar_eq_plus h'.symm) ▸ List.mem_cons_self c rest)
      · exact hp (List.mem_cons_of_mem c h')
    · have e1 : headNotWS (upperChar c :: rest) = !isWS (upperChar c) := rfl
      have e2 : headNotWS (c :: rest) = !isWS c := rfl
      rw [e2] at hh
      rw [e1, isWS_upperChar]
      exact hh
    · cases rest with
      | nil =>
        have e1 : lastNotWS [upperChar c] = !isWS (upperChar c) := rfl
        have e2 : lastNotWS [c] = !isWS c := rfl
        rw [e2] at hl
        rw [e1, isWS_upperChar]
        exact hl
      | cons d ds =>
        have e1 : lastNotWS (upperChar c :: d :: ds) = lastNotWS (d :: ds) := by
          unfold lastNotWS
          rw [List.getLast?_cons_cons]
        have e2 : lastNotWS (c :: d :: ds) = lastNotWS (d :: ds) := by
          unfold lastNotWS
          rw [List.getLast?_cons_cons]
        rw [e2] at hl
        rw [e1]
        exact hl
    · have hmap : (upperChar c :: rest).map lowerChar = (c :: rest).map lowerChar := by
        simp only [List.map_cons, lowerChar_upperChar]
      have e1 : mapToken (upperChar c :: rest) m
          = match synonymTok ((upperChar c :: rest).map lowerChar) m with
            | some tok => tok
            | none => titleCase (upperChar c :: rest) := rfl
      rw [e1, hmap, hsyn]
      have e2 : titleCase (upperChar c :: rest) = upperChar (upperChar c) :: rest := rfl
      rw [e2, upperChar_upperChar]

theorem segment_shape {v part : List Char} (h : part ∈ parseSegments v) :
    part ≠ [] ∧ '+' ∉ part ∧ headNotWS part = true ∧ lastNotWS part = true := by
  unfold parseSegments at h
  have h1 := List.mem_filter.mp h
  obtain ⟨hmem, hne⟩ := h1
  obtain ⟨seg, hseg, heq⟩ := List.mem_map.mp hmem
  subst heq
  refine ⟨?_, ?_, trim_headNotWS seg, trim_lastNotWS seg⟩
  · intro hnil
    rw [hnil] at hne
    simp at hne
  · intro hplus
    exact splitPlus_no_plus hseg (trim_subset hplus)

theorem parseTokens_good {v : List Char} {m : Bool} {t : List Char}
    (h : t ∈ parseTokens v m) : goodTok m t := by
  unfold parseTokens at h
  obtain ⟨part, hpart, heq⟩ := List.mem_map.mp h
  obtain ⟨hne, hp, hh, hl⟩ := segment_shape hpart
  subst heq
  cases hsyn : synonymTok (part.map lowerChar) m with
  | some tok =>
    have e1 : mapToken part m = tok := by
      unfold mapToken
      rw [hsyn]
    rw [e1]
    exact synonymTok_good hsyn
  | none =>
    have e1 : mapToken part m = titleCase part := by
      unfold mapToken
      rw [hsyn]
    rw [e1]
    exact litTok_good hne hp hh hl hsyn

theorem joinPlus_ne_nil {ts : List (List Char)} (hne : ts ≠ [])
    (h : ∀ t ∈ ts, t ≠ []) : joinPlus ts ≠ [] := by
  cases ts with
  | nil => exact absurd rfl hne
  | cons t ts' =>
    cases ts' with
    | nil => exact h t (List.mem_cons_self t [])
    | cons t' ts'' =>
      unfold joinPlus
      cases hcase : t with
      | nil => exact absurd hcase (h t (List.mem_cons_self t _))
      | cons c cs => simp

theorem map_eq_self {α : Type} {l : List α} {f : α → α}
    (h : ∀ x ∈ l, f x = x) : l.map f = l := by
  induction l with
  | nil => rfl
  | cons a as ih =>
    simp only [List.map_cons]
    rw [h a (List.mem_cons_self a as), ih (fun x hx => h x (List.mem_cons_of_mem a hx))]

theorem parseSegments_joinPlus {ts : List (List Char)} {m : Bool}
    (hne : ts ≠ []) (h : ∀ t ∈ ts, goodTok m t) :
    parseSegments (joinPlus ts) = ts := by
  unfold parseSegments
  rw [splitPlus_joinPlus hne (fun t ht => (h t ht).2.1)]
  rw [map_eq_self (fun t ht => trim_eq_self (h t ht).2.2.1 (h t ht).2.2.2.1)]
  rw [List.filter_eq_self.mpr]
  intro t ht
  have := (h t ht).1
  simp only [Bool.not_eq_true']
  cases hc : t.isEmpty
  · rfl
  · exact absurd (List.isEmpty_iff.mp hc) this

/-- Idempotence of the embedded parser: re-parsing a successful result is a
fixed point.  This is a statement about the ASCII-cased model; it exactly
reflects shortcuts.rs on inputs whose characters' case conversions are
single-character (in particular all ASCII text), while inputs exercising the
one-to-many Unicode case mappings of lines 19 and 45 are outside the model's
scope. -/
theorem parse_shortcut_idem {v out : List Char} {m : Bool}
    (h : parse_shortcut v m = some out) : parse_shortcut out m = some out := by
  unfold parse_shortcut at h
  by_cases hv : v = []
  · rw [if_pos hv] at h
    exact absurd h (by simp)
  · rw [if_neg hv] at h
    simp only at h
    by_cases hp : parseTokens v m = []
    · rw [if_pos hp] at h
      exact absurd h (by simp)
    · rw [if_neg hp] at h
      have hout : out = joinPlus (parseTokens v m) := by
        injection h with h
        exact h.symm
      have hgood : ∀ t ∈ parseTokens v m, goodTok m t :=
        fun t ht => parseTokens_good ht
      have hne : joinPlus (parseTokens v m) ≠ [] :=
        joinPlus_ne_nil hp (fun t ht => (hgood t ht).1)
      have hsegs : parseSegments (joinPlus (parseTokens v m)) = parseTokens v m :=
        parseSegments_joinPlus hp hgood
      have htoks : parseTokens (joinPlus (parseTokens v m)) m = parseTokens v m := by
        have e1 : parseTokens (joinPlus (parseTokens v m)) m
            = (parseSegments (joinPlus (parseTokens v m))).map (fun p => mapToken p m) := rfl
        rw [e1, hsegs]
        exact map_eq_self (fun t ht => (hgood t ht).2.2.2.2)
      subst hout
      unfold parse_shortcut
      rw [if_neg hne]
      simp only
      rw [htoks, if_neg hp]

/-- types.rs lines 37-41: the default shortcut text for each platform. -/
structure PlatformShortcut where
  mac : String
  windows : String
deriving DecidableEq

/-- types.rs lines 46-53: the optional user overrides, independently
settable per platform. -/
structure CustomShortcut where
  mac : Option String
  windows : Option String
deriving DecidableEq

/-- types.rs lines 20-32: one configurable action. -/
structure ShortcutEntry where
  key : String
  title : String
  description : String
  category : String
  default_shortcut : PlatformShortcut
  custom_shortcut : Option CustomShortcut
deriving DecidableEq

/-- The default binding read for a platform. -/
def defaultFor (e : ShortcutEntry) (isMac : Bool) : String :=
  if isMac then e.default_shortcut.mac else e.default_shortcut.windows

/-- The custom override stored for a platform, if any. -/
def customFor (e : ShortcutEntry) (isMac : Bool) : Option String :=
  match e.custom_shortcut with
  | some c => if isMac then c.mac else c.windows
  | none => none

/-- Binding resolution of the sync loop (shortcuts.rs lines 79-104): the
custom override for the platform whenever the `custom_shortcut` field is
present and holds a value for that platform, else the default; an entry
whose selected string is empty is skipped (`none`), per the
`shortcut_str.is_empty()` check at line 102. -/
def resolveBinding (e : ShortcutEntry) (isMac : Bool) : Option String :=
  let platform : String := if isMac then "mac" else "windows"
  let shortcut_str : String :=
    match e.custom_shortcut with
    | some custom =>
      if platform = "mac" then
        match custom.mac with
        | some v => v
        | none => e.default_shortcut.mac
      else
        match custom.windows with
        | some v => v
        | none => e.default_shortcut.windows
    | none =>
      if platform = "mac" then e.default_shortcut.mac else e.default_shortcut.windows
  if shortcut_str.isEmpty then none else some shortcut_str

/-- Modelled from the words of the spec contract (section 4.1), for
comparison with the code's `resolveBinding`: the override if present AND
non-empty, else the default if non-empty, else absent. -/
def effectiveBindingSpec (e : ShortcutEntry) (isMac : Bool) : Option String :=
  match customFor e isMac with
  | some o =>
    if !o.isEmpty then some o
    else if !(defaultFor e isMac).isEmpty then some (defaultFor e isMac) else none
  | none =>
    if !(defaultFor e isMac).isEmpty then some (defaultFor e isMac) else none

/-- The combo string actually passed to the OS `register` call for one
entry, if any: the resolved binding, parsed (shortcuts.rs lines 102-109). -/
def comboOf (isMac : Bool) (p : String × ShortcutEntry) : Option (List Char) :=
  match resolveBinding p.2 isMac with
  | none => none
  | some s => parse_shortcut s.data isMac

/-- One iteration of the registration loop (shortcuts.rs lines 78-122):
entries without a combo are skipped, otherwise the `registered` or `failed`
counter is bumped according to the OS capability `os`. -/
def syncStep (isMac : Bool) (os : List Char → Bool) (acc : Nat × Nat)
    (p : String × ShortcutEntry) : Nat × Nat :=
  match comboOf isMac p with
  | none => acc
  | some combo => if os combo then (acc.1 + 1, acc.2) else (acc.1, acc.2 + 1)

/-- The `(registered, failed)` counters after the whole loop
(shortcuts.rs lines 75-122). -/
def syncCounts (shortcuts : List (String × ShortcutEntry)) (isMac : Bool)
    (os : List Char → Bool) : Nat × Nat :=
  shortcuts.foldl (syncStep isMac os) (0, 0)

/-- `register_shortcuts_command` (shortcuts.rs lines 59-129).  `lockOk`
models whether `settings.lock()` succeeds and `unregOk` whether
`unregister_all()` succeeds; the loop's counters are computed, logged and
discarded, and the command returns `Ok(true)`. -/
def register_shortcuts_command (lockOk unregOk : Bool)
    (shortcuts : List (String × ShortcutEntry)) (isMac : Bool)
    (os : List Char → Bool) : Except String Bool :=
  if !lockOk then Except.error "lock poisoned"
  else if !unregOk then Except.error "Failed to unregister shortcuts"
  else
    let _report := syncCounts shortcuts isMac os
    Except.ok true

/-- `update_shortcut_command`'s mutation of one entry (shortcuts.rs lines
157-171): take the existing custom pair or a fresh empty one, set the field
selected by `platform` (any platform other than `"mac"` writes the
`windows` field), store it back. -/
def applyUpdate (e : ShortcutEntry) (shortcut platform : String) : ShortcutEntry :=
  let custom : CustomShortcut :=
    match e.custom_shortcut with
    | some c => c
    | none => { mac := none, windows := none }
  let custom2 : CustomShortcut :=
    if platform = "mac" then { custom with mac := some shortcut }
    else { custom with windows := some shortcut }
  { e with custom_shortcut := some custom2 }

/-- `update_shortcut_command` (shortcuts.rs lines 143-178), with the
`HashMap<String, ShortcutEntry>` store modelled as an association list
(unique keys in the real map).  Returns the new store with the `Ok(true)`
result, or the NotFound error when the key is absent.  (The error message
is modelled without the quoting of the original format string.) -/
def update_shortcut_command (shortcuts : List (String × ShortcutEntry))
    (command_key shortcut platform : String) :
    Except String (List (String × ShortcutEntry) × Bool) :=
  match shortcuts.lookup command_key with
  | some _ =>
    Except.ok
      (shortcuts.map (fun p =>
        if p.1 = command_key then (p.1, applyUpdate p.2 shortcut platform) else p), true)
  | none => Except.error ("Shortcut command " ++ command_key ++ " not found")

/-- `reset_shortcut_command` (shortcuts.rs lines 180-197): clear the whole
`custom_shortcut` field of the addressed entry, or NotFound. -/
def reset_shortcut_command (shortcuts : List (String × ShortcutEntry))
    (command_key : String) :
    Except String (List (String × ShortcutEntry) × Bool) :=
  match shortcuts.lookup command_key with
  | some _ =>
    Except.ok
      (shortcuts.map (fun p =>
        if p.1 = command_key then (p.1, { p.2 with custom_shortcut := none }) else p), true)
  | none => Except.error ("Shortcut command " ++ command_key ++ " not found")

/-- Whether a command result is `Ok`. -/
def exceptOk {α : Type} (r : Except String α) : Bool :=
  match r with
  | Except.ok _ => true
  | Except.error _ => false

/-- Observable events of one `register_shortcuts_command` run, in program
order: settings-lock acquisition and release, and the OS hotkey calls. -/
inductive OsEvent where
  | lockAcquire
  | unregisterAll
  | registerCall (combo : List Char)
  | lockRelease
deriving DecidableEq

/-- The event trace of a successful `register_shortcuts_command` run
(shortcuts.rs lines 59-129): the `MutexGuard` taken at line 66 lives until
the function returns at line 129, so `unregister_all` (line 71) and every
`register` call (line 109) are issued between acquisition and release. -/
def syncTrace (shortcuts : List (String × ShortcutEntry)) (isMac : Bool) :
    List OsEvent :=
  OsEvent.lockAcquire :: OsEvent.unregisterAll ::
    ((shortcuts.filterMap (fun p => (comboOf isMac p).map OsEvent.registerCall))
      ++ [OsEvent.lockRelease])

/-- The discipline the claim asserts (spec section 5): scanning the trace
with a lock-held flag, every OS call happens while the lock is NOT held. -/
def osCallsUnlocked : List OsEvent → Bool → Bool
  | [], _ => true
  | OsEvent.lockAcquire :: r, _ => osCallsUnlocked r true
  | OsEvent.lockRelease :: r, _ => osCallsUnlocked r false
  | OsEvent.unregisterAll :: r, locked => !locked && osCallsUnlocked r locked
  | OsEvent.registerCall _ :: r, locked => !locked && osCallsUnlocked r locked

/-- The discipline the code actually follows: every OS call happens while
the lock IS held. -/
def osCallsLocked : List OsEvent → Bool → Bool
  | [], _ => true
  | OsEvent.lockAcquire :: r, _ => osCallsLocked r true
  | OsEvent.lockRelease :: r, _ => osCallsLocked r false
  | OsEvent.unregisterAll :: r, locked => locked && osCallsLocked r locked
  | OsEvent.registerCall _ :: r, locked => locked && osCallsLocked r locked

/-- A sample catalog entry mirroring the "screenshot" action installed by
`WhisperSettings::default()` (types.rs lines 85-98). -/
def sampleEntry : ShortcutEntry :=
  { key := "screenshot", title := "Screenshot",
    description := "Capture screenshot to load it in your preferred AI",
    category := "core",
    default_shortcut := { mac := "⌘ + S", windows := "Ctrl + S" },
    custom_shortcut := none }

/-- `sampleEntry` with a present-but-empty mac override, as
`update_shortcut_command(key, "", "mac")` would store. -/
def emptyOverrideEntry : ShortcutEntry :=
  { sampleEntry with custom_shortcut := some { mac := some "", windows := none } }

theorem syncCounts_foldl (m : Bool) (os : List Char → Bool)
    (l : List (String × ShortcutEntry)) (r f : Nat) :
    l.foldl (syncStep m os) (r, f)
      = (r + l.countP (fun p => (comboOf m p).any os),
         f + l.countP (fun p => (comboOf m p).any (fun c => !os c))) := by
  induction l generalizing r f with
  | nil => simp
  | cons p l ih =>
    cases hc : comboOf m p with
    | none =>
      have e1 : syncStep m os (r, f) p = (r, f) := by
        unfold syncStep
        rw [hc]
      have e2 : (fun q => ((comboOf m q).any os)) p = false := by simp [hc]
      have e3 : (fun q => ((comboOf m q).any (fun c => !os c))) p = false := by simp [hc]
      simp only [List.foldl_cons, e1, List.countP_cons, e2, e3]
      rw [ih]
      simp
    | some combo =>
      cases hos : os combo with
      | true =>
        have e1 : syncStep m os (r, f) p = (r + 1, f) := by
          unfold syncStep
          rw [hc]
          simp [hos]
        have e2 : (fun q => ((comboOf m q).any os)) p = true := by simp [hc, hos]
        have e3 : (fun q => ((comboOf m q).any (fun c => !os c))) p = false := by
          simp [hc, hos]
        simp only [List.foldl_cons, e1, List.countP_cons, e2, e3]
        rw [ih]
        simp [Prod.mk.injEq]
        omega
      | false =>
        have e1 : syncStep m os (r, f) p = (r, f + 1) := by
          unfold syncStep
          rw [hc]
          simp [hos]
        have e2 : (fun q => ((comboOf m q).any os)) p = false := by simp [hc, hos]
        have e3 : (fun q => ((comboOf m q).any (fun c => !os c))) p = true := by
          simp [hc, hos]
        simp only [List.foldl_cons, e1, List.countP_cons, e2, e3]
        rw [ih]
        simp [Prod.mk.injEq]
        omega

theorem syncCounts_countP (l : List (String × ShortcutEntry)) (m : Bool)
    (os : List Char → Bool) :
    syncCounts l m os
      = (l.countP (fun p => (comboOf m p).any os),
         l.countP (fun p => (comboOf m p).any (fun c => !os c))) := by
  unfold syncCounts
  rw [syncCounts_foldl]
  simp

theorem syncCounts_append (l1 l2 : List (String × ShortcutEntry)) (m : Bool)
    (os : List Char → Bool) :
    syncCounts (l1 ++ l2) m os
      = ((syncCounts l1 m os).1 + (syncCounts l2 m os).1,
         (syncCounts l1 m os).2 + (syncCounts l2 m os).2) := by
  rw [syncCounts_countP, syncCounts_countP, syncCounts_countP,
    List.countP_append, List.countP_append]

theorem lookup_nodup_mem {st : List (String × ShortcutEntry)} {k : String}
    {e e' : ShortcutEntry} (hnd : (st.map Prod.fst).Nodup)
    (hl : st.lookup k = some e) (hmem : (k, e') ∈ st) : e' = e := by
  induction st with
  | nil => simp at hmem
  | cons q st ih =>
    obtain ⟨q1, q2⟩ := q
    rw [List.map_cons, List.nodup_cons] at hnd
    rcases List.mem_cons.mp hmem with h | h
    · have hq1 : q1 = k := by
        have := congrArg Prod.fst h.symm
        exact this
      have hq2 : q2 = e' := by
        have := congrArg Prod.snd h.symm
        exact this
      subst hq1
      simp only [List.lookup, beq_self_eq_true] at hl
      injection hl with hl
      rw [← hq2, hl]
    · have hk : k ≠ q1 := by
        intro he
        subst he
        exact hnd.1 (List.mem_map.mpr ⟨(k, e'), h, rfl⟩)
      have hbeq : (k == q1) = false := beq_eq_false_iff_ne.mpr hk
      simp only [List.lookup, hbeq] at hl
      exact ih hnd.2 hl h

theorem lookup_map_modify {st : List (String × ShortcutEntry)} {k : String}
    {e : ShortcutEntry} (f : ShortcutEntry → ShortcutEntry)
    (hl : st.lookup k = some e) :
    (st.map (fun p => if p.1 = k then (p.1, f p.2) else p)).lookup k
      = some (f e) := by
  induction st with
  | nil => simp at hl
  | cons q st ih =>
    obtain ⟨q1, q2⟩ := q
    by_cases hk : k = q1
    · subst hk
      simp only [List.lookup, beq_self_eq_true] at hl
      injection hl with hl
      subst hl
      rw [List.map_cons]
      have e1 : (if (k, q2).1 = k then ((k, q2).1, f (k, q2).2) else (k, q2))
          = (k, f q2) := by simp
      rw [e1]
      simp only [List.lookup, beq_self_eq_true]
    · have hbeq : (k == q1) = false := beq_eq_false_iff_ne.mpr hk
      simp only [List.lookup, hbeq] at hl
      simp only [List.map_cons]
      by_cases hq : q1 = k
      · exact absurd hq.symm hk
      · rw [if_neg hq]
        simp only [List.lookup, hbeq]
        exact ih hl

theorem reset_map_noop {st : List (String × ShortcutEntry)} {k : String}
    {e : ShortcutEntry} (hnd : (st.map Prod.fst).Nodup)
    (hl : st.lookup k = some e) (hc : e.custom_shortcut = none) :
    st.map (fun p =>
      if p.1 = k then (p.1, { p.2 with custom_shortcut := none }) else p) = st := by
  apply map_eq_self
  intro q hq
  obtain ⟨q1, q2⟩ := q
  by_cases hqk : q1 = k
  · subst hqk
    have hq2 : q2 = e := lookup_nodup_mem hnd hl hq
    subst hq2
    rw [if_pos rfl]
    have : ({ q2 with custom_shortcut := none } : ShortcutEntry) = q2 := by
      cases q2
      simp_all
    rw [this]
  · rw [if_neg hqk]

theorem applyUpdate_fields (e : ShortcutEntry) (sc p : String) :
    (applyUpdate e sc p).key = e.key
    ∧ (applyUpdate e sc p).title = e.title
    ∧ (applyUpdate e sc p).description = e.description
    ∧ (applyUpdate e sc p).category = e.category
    ∧ (applyUpdate e sc p).default_shortcut = e.default_shortcut := by
  unfold applyUpdate
  exact ⟨rfl, rfl, rfl, rfl, rfl⟩

theorem applyUpdate_mac (e : ShortcutEntry) (sc : String) :
    customFor (applyUpdate e sc "mac") true = some sc
    ∧ customFor (applyUpdate e sc "mac") false = customFor e false := by
  unfold applyUpdate customFor
  cases e.custom_shortcut <;> simp

theorem applyUpdate_other (e : ShortcutEntry) (sc p : String) (hp : ¬p = "mac") :
    customFor (applyUpdate e sc p) false = some sc
    ∧ customFor (applyUpdate e sc p) true = customFor e true := by
  unfold applyUpdate customFor
  cases e.custom_shortcut <;> simp [hp]

/-- An entry with the given key and one shortcut text for both platforms. -/
def mkSpec (k d : String) : ShortcutEntry :=
  { key := k, title := k, description := k, category := "core",
    default_shortcut := { mac := d, windows := d }, custom_shortcut := none }

/-- Three bound specs, for the partial-failure scenario of the spec. -/
def threeSpecs : List (String × ShortcutEntry) :=
  [("a", mkSpec "a" "A"), ("b", mkSpec "b" "B"), ("c", mkSpec "c" "C")]

/-- An OS capability stub rejecting exactly the combo `B`. -/
def rejectB (combo : List Char) : Bool := !(combo == "B".data)

/-- Claim C1 (amended): `register_shortcuts_command` computes the
`registered`/`failed` counters only internally (they are logged and
discarded) and returns `Ok(true)`; whenever the settings lock and the
`unregister_all` call succeed, the command completes with `Ok(true)`
regardless of the per-key outcomes. -/
theorem C1_sync_returns_ok_true (shortcuts : List (String × ShortcutEntry))
    (m : Bool) (os : List Char → Bool) :
    register_shortcuts_command true true shortcuts m os = Except.ok true := rfl

/-- Claim C1 counterexample: the command does not return a report carrying
the counts — two stores with different `(registered, failed)` counters
produce the identical return value `Ok(true)`, so the counts cannot be read
off the result. -/
theorem C1_counterexample :
    register_shortcuts_command true true [] false (fun _ => true) = Except.ok true
    ∧ register_shortcuts_command true true [("screenshot", sampleEntry)] false
        (fun _ => true) = Except.ok true
    ∧ syncCounts [] false (fun _ => true)
      ≠ syncCounts [("screenshot", sampleEntry)] false (fun _ => true) := by
  refine ⟨rfl, rfl, ?_⟩
  decide

/-- Claim C2 (amended): the effective binding used during sync is the custom
override for the platform whenever one is stored — even when it is the empty
string, in which case the action is skipped rather than falling back to the
default — and otherwise the platform default; the binding is absent exactly
when the selected string is empty. -/
theorem C2_effective_binding (e : ShortcutEntry) (m : Bool) :
    resolveBinding e m =
      (match customFor e m with
      | some s => if s.isEmpty then none else some s
      | none => if (defaultFor e m).isEmpty then none
                else some (defaultFor e m)) := by
  have hwm : ¬(("windows" : String) = "mac") := by decide
  unfold resolveBinding customFor defaultFor
  cases m with
  | true =>
    cases hc : e.custom_shortcut with
    | none => simp
    | some c =>
      cases hcm : c.mac with
      | none => simp [hcm]
      | some v => simp [hcm]
  | false =>
    cases hc : e.custom_shortcut with
    | none => simp [hwm]
    | some c =>
      cases hcw : c.windows with
      | none => simp [hwm, hcw]
      | some v => simp [hwm, hcw]

/-- Claim C2 counterexample: `emptyOverrideEntry` stores the mac override
`Some("")` while its mac default `"⌘ + S"` is non-empty; the code skips the
action (`none`) where the claimed rule would fall back to the default. -/
theorem C2_counterexample :
    customFor emptyOverrideEntry true = some ""
    ∧ (defaultFor emptyOverrideEntry true).isEmpty = false
    ∧ resolveBinding emptyOverrideEntry true = none
    ∧ effectiveBindingSpec emptyOverrideEntry true = some "⌘ + S"
    ∧ resolveBinding emptyOverrideEntry true
      ≠ effectiveBindingSpec emptyOverrideEntry true := by
  refine ⟨rfl, rfl, rfl, rfl, ?_⟩
  decide

/-- Claim C3: a per-key OS rejection never aborts the loop — the counters
over a concatenation add up componentwise, `registered` counts exactly the
entries whose resolved combo the OS accepts and `failed` exactly those it
rejects (entries without a combo are skipped and counted in neither) — and
in the concrete three-spec scenario with exactly one rejected combo the
result is `(registered, failed) = (2, 1)`. -/
theorem C3_sync_no_abort :
    (∀ (l1 l2 : List (String × ShortcutEntry)) (m : Bool) (os : List Char → Bool),
      syncCounts (l1 ++ l2) m os
        = ((syncCounts l1 m os).1 + (syncCounts l2 m os).1,
           (syncCounts l1 m os).2 + (syncCounts l2 m os).2))
    ∧ (∀ (l : List (String × ShortcutEntry)) (m : Bool) (os : List Char → Bool),
      syncCounts l m os
        = (l.countP (fun p => (comboOf m p).any os),
           l.countP (fun p => (comboOf m p).any (fun c => !os c))))
    ∧ syncCounts threeSpecs false rejectB = (2, 1) :=
  ⟨syncCounts_append, syncCounts_countP, by decide⟩

/-- Claim C4: every segment equal case-insensitively to `cmd`, `command` or
`⌘` parses to the token `Cmd` when on mac and `Ctrl` otherwise; in
particular `parse("Cmd+S", true)` yields `Cmd+S` and `parse("Cmd+S", false)`
yields `Ctrl+S`. -/
theorem C4_meta_modifier (part : List Char) (m : Bool)
    (h : part.map lowerChar = "cmd".data ∨ part.map lowerChar = "command".data
      ∨ part.map lowerChar = "⌘".data) :
    mapToken part m = (if m then "Cmd".data else "Ctrl".data)
    ∧ parse_shortcut "Cmd+S".data true = some "Cmd+S".data
    ∧ parse_shortcut "Cmd+S".data false = some "Ctrl+S".data := by
  refine ⟨?_, by decide, by decide⟩
  have hcond : part.map lowerChar = "⌘".data ∨ part.map lowerChar = "cmd".data
      ∨ part.map lowerChar = "command".data := by tauto
  unfold mapToken synonymTok
  rw [if_pos hcond]

/-- Witness for C4 at the concrete segment `CMD` on the non-mac platform. -/
theorem C4_witness :
    mapToken "CMD".data false = (if false then "Cmd".data else "Ctrl".data)
    ∧ parse_shortcut "Cmd+S".data true = some "Cmd+S".data
    ∧ parse_shortcut "Cmd+S".data false = some "Ctrl+S".data :=
  C4_meta_modifier "CMD".data false (by decide)

/-- Claim C6: `parse_shortcut` returns `none` exactly when the input has no
non-empty `+`-separated segment (in particular for empty or whitespace-only
input); otherwise it returns `some` combination — it never fails with an
error, and unrecognized segments become literal key tokens. -/
theorem C6_parse_none_iff :
    (∀ (v : List Char) (m : Bool),
      parse_shortcut v m = none ↔ parseSegments v = [])
    ∧ (∀ v : List Char, (∀ c ∈ v, isWS c = true) → parseSegments v = [])
    ∧ parse_shortcut "g".data false = some "G".data
    ∧ parse_shortcut "".data false = none
    ∧ parse_shortcut "  +  ".data false = none
    ∧ parse_shortcut "hello".data false = some "Hello".data := by
  refine ⟨?_, ?_, by decide, by decide, by decide, by decide⟩
  · intro v m
    unfold parse_shortcut
    by_cases hv : v = []
    · rw [if_pos hv]
      subst hv
      constructor
      · intro
        rfl
      · intro
        rfl
    · rw [if_neg hv]
      simp only
      by_cases hp : parseTokens v m = []
      · rw [if_pos hp]
        constructor
        · intro
          have h2 := hp
          unfold parseTokens at h2
          exact List.map_eq_nil_iff.mp h2
        · intro
          rfl
      · rw [if_neg hp]
        constructor
        · intro hcontra
          exact absurd hcontra (by simp)
        · intro hseg
          exfalso
          apply hp
          unfold parseTokens
          rw [hseg]
          rfl
  · intro v hws
    unfold parseSegments
    rw [List.filter_eq_nil_iff]
    intro t ht
    obtain ⟨seg, hseg, heq⟩ := List.mem_map.mp ht
    have hnil : trimChars seg = [] :=
      trim_nil_of_allWS (fun c hc => hws c (splitPlus_mem_subset hseg hc))
    rw [← heq, hnil]
    simp

/-- Witness for C6 applying the whitespace-only rule at the input of three
spaces. -/
theorem C6_witness : parseSegments "   ".data = [] :=
  C6_parse_none_iff.2.1 "   ".data (by decide)

/-- Claim C7: `update_shortcut_command` and `reset_shortcut_command` fail
with the NotFound error exactly when the addressed key is absent from the
store, and a reset of an existing action that has no custom override
succeeds as a no-op, leaving the store unchanged. -/
theorem C7_notfound_and_reset_noop (st : List (String × ShortcutEntry))
    (k sc p : String) :
    (exceptOk (update_shortcut_command st k sc p) = (st.lookup k).isSome)
    ∧ (exceptOk (reset_shortcut_command st k) = (st.lookup k).isSome)
    ∧ (∀ e : ShortcutEntry, (st.map Prod.fst).Nodup → st.lookup k = some e →
        e.custom_shortcut = none →
        reset_shortcut_command st k = Except.ok (st, true)) := by
  refine ⟨?_, ?_, ?_⟩
  · cases hl : st.lookup k with
    | some e =>
      unfold update_shortcut_command
      rw [hl]
      rfl
    | none =>
      unfold update_shortcut_command
      rw [hl]
      rfl
  · cases hl : st.lookup k with
    | some e =>
      unfold reset_shortcut_command
      rw [hl]
      rfl
    | none =>
      unfold reset_shortcut_command
      rw [hl]
      rfl
  · intro e hnd hl hc
    have e1 : reset_shortcut_command st k
        = Except.ok (st.map (fun p =>
            if p.1 = k then (p.1, { p.2 with custom_shortcut := none }) else p),
          true) := by
      unfold reset_shortcut_command
      rw [hl]
    rw [e1, reset_map_noop hnd hl hc]

/-- Witness for C7: updating a nonexistent key fails (NotFound) and
resetting the override-free sample entry is a successful no-op. -/
theorem C7_witness :
    exceptOk (update_shortcut_command [("screenshot", sampleEntry)]
        "nonexistent" "Ctrl+Z" "mac")
      = (List.lookup "nonexistent" [("screenshot", sampleEntry)]).isSome
    ∧ reset_shortcut_command [("screenshot", sampleEntry)] "screenshot"
      = Except.ok ([("screenshot", sampleEntry)], true) := by
  constructor
  · exact (C7_notfound_and_reset_noop [("screenshot", sampleEntry)]
      "nonexistent" "Ctrl+Z" "mac").1
  · exact (C7_notfound_and_reset_noop [("screenshot", sampleEntry)]
      "screenshot" "" "mac").2.2 sampleEntry (by decide) (by decide) rfl

/-- Claim C8: a successful `update_shortcut_command` for one platform
changes only that platform's custom override of the addressed action: every
other pair of the store is unchanged, and for the addressed action the
display fields, both defaults and the other platform's override are
preserved while the selected platform's override becomes the new text. -/
theorem C8_update_frame (st : List (String × ShortcutEntry)) (k sc p : String)
    (st' : List (String × ShortcutEntry))
    (h : update_shortcut_command st k sc p = Except.ok (st', true)) :
    (∀ q ∈ st, q.1 ≠ k → q ∈ st')
    ∧ (∀ q ∈ st', q.1 ≠ k → q ∈ st)
    ∧ (∀ e : ShortcutEntry, (k, e) ∈ st → ∃ e' : ShortcutEntry, (k, e') ∈ st'
        ∧ e'.key = e.key ∧ e'.title = e.title ∧ e'.description = e.description
        ∧ e'.category = e.category ∧ e'.default_shortcut = e.default_shortcut
        ∧ (p = "mac" → customFor e' true = some sc
            ∧ customFor e' false = customFor e false)
        ∧ (¬p = "mac" → customFor e' false = some sc
            ∧ customFor e' true = customFor e true)) := by
  unfold update_shortcut_command at h
  cases hl : st.lookup k with
  | none =>
    rw [hl] at h
    exact Except.noConfusion h
  | some e0 =>
    rw [hl] at h
    injection h with h
    have hst' : st.map (fun q =>
        if q.1 = k then (q.1, applyUpdate q.2 sc p) else q) = st' :=
      congrArg Prod.fst h
    subst hst'
    refine ⟨?_, ?_, ?_⟩
    · intro q hq hqk
      exact List.mem_map.mpr ⟨q, hq, by simp [hqk]⟩
    · intro q hq hqk
      obtain ⟨q0, hq0, hfq⟩ := List.mem_map.mp hq
      by_cases hq0k : q0.1 = k
      · exfalso
        apply hqk
        rw [← hfq]
        simp [hq0k]
      · rw [← hfq]
        simp only [if_neg hq0k]
        exact hq0
    · intro e hmem
      refine ⟨applyUpdate e sc p,
        List.mem_map.mpr ⟨(k, e), hmem, by simp⟩,
        (applyUpdate_fields e sc p).1,
        (applyUpdate_fields e sc p).2.1,
        (applyUpdate_fields e sc p).2.2.1,
        (applyUpdate_fields e sc p).2.2.2.1,
        (applyUpdate_fields e sc p).2.2.2.2,
        ?_, ?_⟩
      · intro hp
        subst hp
        exact applyUpdate_mac e sc
      · intro hp
        exact applyUpdate_other e sc p hp

/-- A concrete two-entry store and its image under a mac-only update of the
"screenshot" action. -/
def twoStore : List (String × ShortcutEntry) :=
  [("screenshot", sampleEntry), ("record", mkSpec "record" "Ctrl+R")]

/-- The store `twoStore` after `update_shortcut_command("screenshot",
"Cmd+Shift+S", "mac")`. -/
def twoStoreUpdated : List (String × ShortcutEntry) :=
  [("screenshot", applyUpdate sampleEntry "Cmd+Shift+S" "mac"),
   ("record", mkSpec "record" "Ctrl+R")]

/-- Witness for C8 at the concrete two-entry store: the other action's pair
survives the mac-only update of "screenshot" unchanged. -/
theorem C8_witness :
    ("record", mkSpec "record" "Ctrl+R") ∈ twoStoreUpdated := by
  have h := C8_update_frame twoStore "screenshot" "Cmd+Shift+S" "mac"
    twoStoreUpdated rfl
  exact h.1 ("record", mkSpec "record" "Ctrl+R") (by simp [twoStore]) (by decide)

/-- Claim C9 counterexample: in the trace of a sync over the single sample
entry, the `unregister_all` and `register` OS calls happen strictly between
lock acquisition and lock release — the claimed snapshot-then-release
discipline is violated. -/
theorem C9_counterexample :
    syncTrace [("screenshot", sampleEntry)] false
      = [OsEvent.lockAcquire, OsEvent.unregisterAll,
        OsEvent.registerCall "Ctrl+S".data, OsEvent.lockRelease]
    ∧ osCallsUnlocked (syncTrace [("screenshot", sampleEntry)] false) false
      = false := by
  constructor
  · decide
  · decide

/-- Claim C9 (amended): the sync command acquires the settings lock before
`unregister_all`, holds it through every `register` call, and releases it
only when the command returns — every OS call is issued while the lock is
held. -/
theorem C9_lock_held_across_os_calls (st : List (String × ShortcutEntry))
    (m : Bool) : osCallsLocked (syncTrace st m) false = true := by
  have key : ∀ evs : List OsEvent,
      (∀ ev ∈ evs, ∃ c, ev = OsEvent.registerCall c) →
      osCallsLocked (evs ++ [OsEvent.lockRelease]) true = true := by
    intro evs hev
    induction evs with
    | nil => rfl
    | cons ev r ih =>
      obtain ⟨c, hc⟩ := hev ev (List.mem_cons_self ev r)
      subst hc
      have e1 : osCallsLocked ((OsEvent.registerCall c :: r)
            ++ [OsEvent.lockRelease]) true
          = (true && osCallsLocked (r ++ [OsEvent.lockRelease]) true) := rfl
      rw [e1, ih (fun x hx => hev x (List.mem_cons_of_mem _ hx))]
      rfl
  have hevs : ∀ ev ∈ st.filterMap
      (fun p => (comboOf m p).map OsEvent.registerCall),
      ∃ c, ev = OsEvent.registerCall c := by
    intro ev hev
    obtain ⟨p, hp, hmap⟩ := List.mem_filterMap.mp hev
    cases hc : comboOf m p with
    | none =>
      rw [hc] at hmap
      simp at hmap
    | some c =>
      rw [hc] at hmap
      simp at hmap
      exact ⟨c, hmap.symm⟩
  unfold syncTrace
  have e1 : osCallsLocked (OsEvent.lockAcquire :: OsEvent.unregisterAll ::
      (st.filterMap (fun p => (comboOf m p).map OsEvent.registerCall)
        ++ [OsEvent.lockRelease])) false
      = (true && osCallsLocked
          (st.filterMap (fun p => (comboOf m p).map OsEvent.registerCall)
            ++ [OsEvent.lockRelease]) true) := rfl
  rw [e1, key _ hevs]
  rfl

/-- Claim C10: a successful `reset_shortcut_command` clears the custom
overrides for both platforms at once (the stored entry's `custom_shortcut`
becomes absent), after which the effective binding for each platform with a
non-empty default is exactly that platform's default. -/
theorem C10_reset_clears_both (st : List (String × ShortcutEntry))
    (k : String) (e : ShortcutEntry) (hl : st.lookup k = some e) :
    ∃ st', reset_shortcut_command st k = Except.ok (st', true)
      ∧ st'.lookup k = some { e with custom_shortcut := none }
      ∧ customFor { e with custom_shortcut := none } true = none
      ∧ customFor { e with custom_shortcut := none } false = none
      ∧ (∀ m : Bool, (defaultFor e m).isEmpty = false →
          resolveBinding { e with custom_shortcut := none } m
            = some (defaultFor e m)) := by
  refine ⟨st.map (fun p =>
      if p.1 = k then (p.1, { p.2 with custom_shortcut := none }) else p),
    ?_, ?_, rfl, rfl, ?_⟩
  · unfold reset_shortcut_command
    rw [hl]
  · exact lookup_map_modify (fun e2 => { e2 with custom_shortcut := none }) hl
  · intro m hne
    cases m with
    | true =>
      have e1 : resolveBinding { e with custom_shortcut := none } true
          = (if e.default_shortcut.mac.isEmpty then none
            else some e.default_shortcut.mac) := rfl
      have e2 : defaultFor e true = e.default_shortcut.mac := rfl
      rw [e2] at hne
      rw [e1, e2, hne]
      simp
    | false =>
      have e1 : resolveBinding { e with custom_shortcut := none } false
          = (if e.default_shortcut.windows.isEmpty then none
            else some e.default_shortcut.windows) := rfl
      have e2 : defaultFor e false = e.default_shortcut.windows := rfl
      rw [e2] at hne
      rw [e1, e2, hne]
      simp

/-- The entry `emptyOverrideEntry` after its overrides are cleared. -/
def resetSample : ShortcutEntry :=
  { emptyOverrideEntry with custom_shortcut := none }

/-- The singleton store holding `resetSample`. -/
def resetStore : List (String × ShortcutEntry) := [("screenshot", resetSample)]

/-- Witness for C10: resetting the entry that carried the empty mac override
clears both overrides and restores the mac default. -/
theorem C10_witness :
    reset_shortcut_command [("screenshot", emptyOverrideEntry)] "screenshot"
      = Except.ok (resetStore, true)
    ∧ resetStore.lookup "screenshot" = some resetSample
    ∧ customFor resetSample true = none
    ∧ customFor resetSample false = none
    ∧ resolveBinding resetSample true = some "⌘ + S" := by
  obtain ⟨st', h1, h2, h3, h4, h5⟩ :=
    C10_reset_clears_both [("screenshot", emptyOverrideEntry)] "screenshot"
      emptyOverrideEntry (by decide)
  have h0 : reset_shortcut_command [("screenshot", emptyOverrideEntry)]
      "screenshot" = Except.ok (resetStore, true) := rfl
  have hst : st' = resetStore := by
    rw [h0] at h1
    injection h1 with h1
    exact (congrArg Prod.fst h1).symm
  subst hst
  exact ⟨h0, h2, h3, h4, h5 true (by decide)⟩
